import Mathlib

/-!
Verification of the backend core of the wonrax/website repository: the
threaded blog-comment store (schema in
`src/api/migrations/20240213171922_identities_and_blog_comments/migration.sql`
with the parent foreign key later changed to `ON DELETE CASCADE`, the
recursive tree query in `src/api/src/blog/comment/test.sql`), the feed
ranking engine and its HTTP surface (the Rust service itself is not part of
the source tree; where needed it is modelled from the specification and
marked as such), and the client-side comment/feed state machines
(`src/apps/hhai.dev/src/components/BlogComments/*.tsx`,
`src/web/src/components/RecommenderFeedSolid.tsx`).

Machine integers are modelled as `Nat`/`Int`, SQL timestamps as `Nat`
(seconds), SQL floats as `ℚ`.
-/

/-- A row of the `blog_comments` table (migration
`20240213171922_identities_and_blog_comments`), restricted to the columns the
tree query and the cascade constraint touch.  `upvote` is the aggregated vote
score, `created_at` a timestamp. -/
structure BlogComment where
  id : Nat
  post_id : Nat
  parent_id : Option Nat
  author_name : Option String
  identity_id : Option Nat
  content : String
  created_at : Nat
  upvote : Int
deriving DecidableEq

/-- Look up the parent id of the comment row with id `i`, as the foreign key
`blog_comments_parent_id_fkey` resolves it: `none` when the row does not
exist or is a root comment. -/
def parentOf (store : List BlogComment) (i : Nat) : Option Nat :=
  match store.find? (fun c => c.id == i) with
  | some c => c.parent_id
  | none => none

/-- Comment `d` is a descendant of comment `a`: following `parent_id` up from
`d` reaches `a` (the claim wording: reachable by following `parent_id` up to
`a`). -/
inductive ReachesUp (store : List BlogComment) : Nat → Nat → Prop where
  | one : ∀ {d a : Nat}, parentOf store d = some a → ReachesUp store d a
  | step : ∀ {d m a : Nat}, parentOf store d = some m → ReachesUp store m a →
      ReachesUp store d a

/-- Bounded reachability along `parent_id`, used to compute the set of rows a
cascade removes.  `fuel` bounds the number of parent hops. -/
def reachesWithin (store : List BlogComment) : Nat → Nat → Nat → Bool
  | 0, _, _ => false
  | fuel + 1, d, a =>
    match parentOf store d with
    | some p => p == a || reachesWithin store fuel p a
    | none => false

/-- Hard delete of the comment with id `cid` under the final
`blog_comments_parent_id_fkey ... ON DELETE CASCADE` constraint (the later
migration replacing the original `ON DELETE SET NULL`): the row itself and
every row whose parent chain reaches it are removed.  A chain inside a store
of `n` rows never needs more than `n` hops, hence the fuel. -/
def deleteCascade (store : List BlogComment) (cid : Nat) : List BlogComment :=
  store.filter (fun r => !(r.id == cid || reachesWithin store store.length r.id cid))

/-- An explicit parent-hop chain: the list starts at the source comment, each
element's parent is the next element, and the last element's parent is `a`. -/
def IsUpChain (store : List BlogComment) (a : Nat) : List Nat → Prop
  | [] => False
  | d :: rest =>
    match rest with
    | [] => parentOf store d = some a
    | m :: _ => parentOf store d = some m ∧ IsUpChain store a rest

theorem chain_of_reachesUp {store : List BlogComment} {d a : Nat}
    (h : ReachesUp store d a) :
    ∃ l : List Nat, l.head? = some d ∧ IsUpChain store a l := by
  induction h with
  | one hp => exact ⟨[_], rfl, hp⟩
  | step hp _ ih =>
    obtain ⟨l, hl, hc⟩ := ih
    cases l with
    | nil => simp at hl
    | cons m' rest =>
      simp only [List.head?_cons, Option.some.injEq] at hl
      subst hl
      exact ⟨_ :: _ :: rest, rfl, hp, hc⟩

/-- A comment id whose parent lookup succeeds is the id of some store row. -/
theorem mem_ids_of_parentOf_eq_some {store : List BlogComment} {d y : Nat}
    (hd : parentOf store d = some y) : d ∈ store.map (fun c => c.id) := by
  unfold parentOf at hd
  cases hfind : store.find? (fun c => c.id == d) with
  | none => rw [hfind] at hd; exact absurd hd (by simp)
  | some c =>
    have hmem := List.mem_of_find?_eq_some hfind
    have hp := List.find?_some hfind
    simp only [beq_iff_eq] at hp
    exact hp ▸ List.mem_map_of_mem _ hmem

/-- Every element of a parent-hop chain is the id of some row of the store. -/
theorem chain_mem_store {store : List BlogComment} {a : Nat} :
    ∀ {l : List Nat}, IsUpChain store a l → ∀ x ∈ l, x ∈ store.map (fun c => c.id) := by
  intro l
  induction l with
  | nil => intro h; exact absurd h not_false
  | cons d rest ih =>
    intro hc x hx
    have hd : ∃ y, parentOf store d = some y := by
      cases rest with
      | nil => exact ⟨_, hc⟩
      | cons m tl => exact ⟨_, hc.1⟩
    obtain ⟨y, hd⟩ := hd
    rcases List.mem_cons.mp hx with h | h
    · exact h ▸ mem_ids_of_parentOf_eq_some hd
    · cases rest with
      | nil => simp at h
      | cons m tl => exact ih hc.2 x h

/-- The suffix of a chain starting at any of its members is itself a chain. -/
theorem chain_suffix_at_mem {store : List BlogComment} {a : Nat} :
    ∀ {l : List Nat}, IsUpChain store a l → ∀ d ∈ l,
      ∃ l', IsUpChain store a l' ∧ l'.head? = some d ∧ l'.length ≤ l.length ∧ l' ⊆ l := by
  intro l
  induction l with
  | nil => intro h; exact absurd h not_false
  | cons x rest ih =>
    intro hc d hd
    rcases List.mem_cons.mp hd with h | h
    · exact ⟨x :: rest, hc, by simp [h], le_refl _, fun y hy => hy⟩
    · cases rest with
      | nil => simp at h
      | cons m tl =>
        obtain ⟨l', h1, h2, h3, h4⟩ := ih hc.2 d h
        exact ⟨l', h1, h2, Nat.le_succ_of_le h3, fun y hy => List.mem_cons_of_mem _ (h4 hy)⟩

/-- Every chain can be thinned to a duplicate-free chain with the same head
drawn from the same elements (cut the loop between two occurrences of a
repeated element). -/
theorem nodup_chain_of_chain {store : List BlogComment} {a : Nat} :
    ∀ (n : Nat) (d : Nat) (rest : List Nat), (d :: rest).length ≤ n →
      IsUpChain store a (d :: rest) →
        ∃ l', IsUpChain store a l' ∧ l'.head? = some d ∧ l'.Nodup ∧ l' ⊆ d :: rest := by
  intro n
  induction n with
  | zero =>
    intro d rest hlen hc
    simp at hlen
  | succ n ih =>
    intro d rest hlen hc
    by_cases hmem : d ∈ rest
    · -- loop: restart the chain from the occurrence of d inside rest
      have hrest : IsUpChain store a rest := by
        cases rest with
        | nil => simp at hmem
        | cons m tl => exact hc.2
      obtain ⟨l', h1, h2, h3, h4⟩ := chain_suffix_at_mem hrest d hmem
      cases l' with
      | nil => simp at h2
      | cons d' tl' =>
        simp only [List.head?_cons, Option.some.injEq] at h2
        replace h2 := h2.symm
        subst h2
        have hlen' : (d :: tl').length ≤ n := by
          have hr : rest.length ≤ n := by
            have := List.length_cons d rest ▸ hlen
            omega
          exact le_trans h3 hr
        obtain ⟨l'', g1, g2, g3, g4⟩ := ih d tl' hlen' h1
        exact ⟨l'', g1, g2, g3,
          fun y hy => List.mem_cons_of_mem _ (h4 (g4 hy))⟩
    · cases rest with
      | nil => exact ⟨[d], hc, rfl, List.nodup_singleton d, fun y hy => hy⟩
      | cons m tl =>
        have hlen' : (m :: tl).length ≤ n := by
          have := List.length_cons d (m :: tl) ▸ hlen
          omega
        obtain ⟨l', h1, h2, h3, h4⟩ := ih m tl hlen' hc.2
        refine ⟨d :: l', ?_, rfl, ?_, ?_⟩
        · cases l' with
          | nil => simp at h2
          | cons z zs =>
            simp only [List.head?_cons, Option.some.injEq] at h2
            subst h2
            exact ⟨hc.1, h1⟩
        · exact List.nodup_cons.mpr ⟨fun hdl => hmem (h4 hdl), h3⟩
        · intro y hy
          rcases List.mem_cons.mp hy with h | h
          · exact h ▸ List.mem_cons_self d _
          · exact List.mem_cons_of_mem _ (h4 h)

/-- A chain of length at most the fuel certifies bounded reachability. -/
theorem reachesWithin_of_chain {store : List BlogComment} {a : Nat} :
    ∀ (rest : List Nat) (d : Nat), IsUpChain store a (d :: rest) →
      ∀ {fuel : Nat}, (d :: rest).length ≤ fuel → reachesWithin store fuel d a = true := by
  intro rest
  induction rest with
  | nil =>
    intro d hc fuel hlen
    cases fuel with
    | zero => simp at hlen
    | succ fuel =>
      show reachesWithin store (fuel + 1) d a = true
      unfold reachesWithin
      rw [show parentOf store d = some a from hc]
      simp
  | cons m tl ih =>
    intro d hc fuel hlen
    cases fuel with
    | zero => simp at hlen
    | succ fuel =>
      show reachesWithin store (fuel + 1) d a = true
      unfold reachesWithin
      rw [hc.1]
      have hm : reachesWithin store fuel m a = true := by
        refine ih m hc.2 ?_
        have := List.length_cons d (m :: tl) ▸ hlen
        omega
      simp [hm]

/-- Unbounded reachability implies reachability within `store.length` hops:
thin the witnessing chain to a duplicate-free one, whose members are distinct
row ids of the store, hence at most `store.length` many. -/
theorem reachesWithin_length_of_reachesUp {store : List BlogComment} {d a : Nat}
    (h : ReachesUp store d a) :
    reachesWithin store store.length d a = true := by
  obtain ⟨l, hl, hc⟩ := chain_of_reachesUp h
  cases l with
  | nil => simp at hl
  | cons d' rest =>
    simp only [List.head?_cons, Option.some.injEq] at hl
    replace hl := hl.symm
    subst hl
    obtain ⟨l', h1, h2, h3, _⟩ :=
      nodup_chain_of_chain (d :: rest).length d rest (le_refl _) hc
    cases l' with
    | nil => simp at h2
    | cons d'' tl' =>
      simp only [List.head?_cons, Option.some.injEq] at h2
      replace h2 := h2.symm
      subst h2
      have hsub : d :: tl' ⊆ store.map (fun c => c.id) :=
        fun x hx => chain_mem_store h1 x hx
      have hlen : (d :: tl').length ≤ store.length := by
        have := (h3.subperm hsub).length_le
        simpa using this
      exact reachesWithin_of_chain tl' d h1 hlen

/-- C1: deleting a comment removes all of its descendant comments — for every
comment id `cid` and every descendant id `did` (reachable by following
`parent_id` up to `cid`), after the cascade delete of `cid` no row with id
`did` exists in the comment store (the `ON DELETE CASCADE` invariant of
`blog_comments_parent_id_fkey`). -/
theorem delete_cascade_removes_descendants (store : List BlogComment)
    (cid did : Nat) (hdesc : ReachesUp store did cid) :
    did ∉ (deleteCascade store cid).map (fun r => r.id) := by
  intro hmem
  obtain ⟨r, hr, hid⟩ := List.mem_map.mp hmem
  have hkept := List.of_mem_filter hr
  rw [hid] at hkept
  have := reachesWithin_length_of_reachesUp hdesc
  simp [this] at hkept

/-- Concrete store for the C1 witness: comment 1 is the root, 2 replies to 1,
3 replies to 2. -/
def exStoreC1 : List BlogComment :=
  [⟨1, 10, none, some "ann", none, "root", 100, 0⟩,
   ⟨2, 10, some 1, some "bob", none, "reply", 101, 0⟩,
   ⟨3, 10, some 2, some "cid", none, "reply to reply", 102, 0⟩]

/-- C1 witness: in the concrete store, comment 3 is a grandchild of comment 1
and is gone after deleting comment 1. -/
theorem delete_cascade_removes_descendants_witness :
    3 ∉ (deleteCascade exStoreC1 1).map (fun r => r.id) :=
  delete_cascade_removes_descendants exStoreC1 1 3
    (ReachesUp.step (m := 2) (by decide) (ReachesUp.one (by decide)))

/-- C1 witness helper rows: comment 1 is the root, 2 replies to 1, 3 replies
to 2, 4 also replies to 1 (so 2 and 4 are siblings). -/
def exR1 : BlogComment := ⟨1, 10, none, some "ann", none, "root", 100, 0⟩

/-- Second example row, a reply to comment 1. -/
def exR2 : BlogComment := ⟨2, 10, some 1, some "bob", none, "reply", 101, 0⟩

/-- Third example row, a reply to comment 2. -/
def exR3 : BlogComment := ⟨3, 10, some 2, some "cid", none, "reply to reply", 102, 0⟩

/-- Fourth example row, a second reply to comment 1 with a higher vote. -/
def exR4 : BlogComment := ⟨4, 10, some 1, some "dee", none, "late reply", 103, 7⟩

/-! ### The recursive comment-tree query (`src/api/src/blog/comment/test.sql`)

The recursive CTE starts from the root comments of the post
(`parent_id IS NULL`), carries a `root` path array (`ARRAY[comments.id]` at a
root, `array_append(root, comments.id)` at a child), and the outer query
sorts the rows with `ORDER BY root`, PostgreSQL array comparison being
element-wise with a shorter array sorting before any array it is a proper
prefix of. -/

/-- Look up a comment row by id, as the join `comments.parent_id = t.id`
resolves it. -/
def findComment (store : List BlogComment) (i : Nat) : Option BlogComment :=
  store.find? (fun c => c.id == i)

/-- The `root` path array the CTE carries for the comment with id `i`:
`[i]` at a root comment, the parent's path with `i` appended at a child.
`fuel` bounds the recursion depth; a comment deeper than `fuel` (or with a
dangling parent) produces no row. -/
def pathTo (store : List BlogComment) : Nat → Nat → Option (List Nat)
  | 0, _ => none
  | fuel + 1, i =>
    match findComment store i with
    | none => none
    | some c =>
      match c.parent_id with
      | none => some [i]
      | some p => (pathTo store fuel p).map (fun q => q ++ [i])

/-- The unsorted row set of the recursive CTE `t`: every comment of the post
reachable from a root within `store.length` parent hops, tagged with its
`root` path array. -/
def ctRows (store : List BlogComment) : List (List Nat × BlogComment) :=
  store.filterMap (fun c => (pathTo store store.length c.id).map (fun p => (p, c)))

/-- PostgreSQL array comparison on integer arrays, as `ORDER BY root` uses
it: element-wise, with a proper prefix sorting before the longer array. -/
def pathLe : List Nat → List Nat → Bool
  | [], _ => true
  | _ :: _, [] => false
  | x :: xs, y :: ys => decide (x < y) || (x == y && pathLe xs ys)

/-- Row comparison of the final `ORDER BY root`. -/
abbrev rowLe (r s : List Nat × BlogComment) : Prop := pathLe r.1 s.1 = true

theorem pathLe_total (a : List Nat) : ∀ b, pathLe a b = true ∨ pathLe b a = true := by
  induction a with
  | nil => intro b; left; rfl
  | cons x xs ih =>
    intro b
    cases b with
    | nil => right; rfl
    | cons y ys =>
      rcases Nat.lt_trichotomy x y with h | h | h
      · left; simp [pathLe, h]
      · subst h
        rcases ih ys with h' | h'
        · left; simp [pathLe, h']
        · right; simp [pathLe, h']
      · right; simp [pathLe, h]

theorem pathLe_trans :
    ∀ (a b c : List Nat), pathLe a b = true → pathLe b c = true → pathLe a c = true := by
  intro a
  induction a with
  | nil => intro b c _ _; rfl
  | cons x xs ih =>
    intro b c hab hbc
    cases b with
    | nil => simp [pathLe] at hab
    | cons y ys =>
      cases c with
      | nil => simp [pathLe] at hbc
      | cons z zs =>
        simp only [pathLe, Bool.or_eq_true, Bool.and_eq_true, decide_eq_true_eq,
          beq_iff_eq] at hab hbc ⊢
        rcases hab with h1 | ⟨h1, h1'⟩
        · rcases hbc with h2 | ⟨h2, _⟩
          · exact Or.inl (Nat.lt_trans h1 h2)
          · exact Or.inl (h2 ▸ h1)
        · rcases hbc with h2 | ⟨h2, h2'⟩
          · exact Or.inl (h1 ▸ h2)
          · exact Or.inr ⟨h1.trans h2, ih ys zs h1' h2'⟩

instance : IsTotal (List Nat × BlogComment) rowLe :=
  ⟨fun a b => pathLe_total a.1 b.1⟩

instance : IsTrans (List Nat × BlogComment) rowLe :=
  ⟨fun a b c => pathLe_trans a.1 b.1 c.1⟩

/-- The row sequence the tree query returns: the CTE rows sorted by
`ORDER BY root`. -/
def commentTreeRows (store : List BlogComment) : List (List Nat × BlogComment) :=
  (ctRows store).insertionSort rowLe

/-- A proper prefix never sorts after its extension: comparing an extended
array against its own proper prefix yields false. -/
theorem pathLe_extension_not (q : List Nat) (x : Nat) (xs : List Nat) :
    pathLe (q ++ x :: xs) q = false := by
  induction q with
  | nil => rfl
  | cons z zs ih => simp [pathLe, ih]

/-- Comparing two arrays that differ only in their last element reduces to
comparing those elements. -/
theorem pathLe_append_last_iff (q : List Nat) (x y : Nat) :
    pathLe (q ++ [x]) (q ++ [y]) = true ↔ x ≤ y := by
  induction q with
  | nil =>
    simp only [List.nil_append, pathLe, Bool.or_eq_true, Bool.and_eq_true,
      decide_eq_true_eq, beq_iff_eq]
    constructor
    · rintro (h | ⟨h, _⟩)
      · exact Nat.le_of_lt h
      · exact Nat.le_of_eq h
    · intro h
      rcases Nat.lt_or_ge x y with h' | h'
      · exact Or.inl h'
      · exact Or.inr ⟨Nat.le_antisymm h h', trivial⟩
  | cons z zs ih =>
    simp only [List.cons_append, pathLe, Bool.or_eq_true, Bool.and_eq_true,
      decide_eq_true_eq, beq_iff_eq]
    constructor
    · rintro (h | ⟨_, h⟩)
      · exact absurd h (Nat.lt_irrefl z)
      · exact ih.mp h
    · intro h
      exact Or.inr ⟨trivial, ih.mpr h⟩


/-- With duplicate-free ids, looking a comment up by its own id returns the
comment itself. -/
theorem findComment_self {store : List BlogComment}
    (hnd : (store.map (fun c => c.id)).Nodup) {c : BlogComment} (hc : c ∈ store) :
    findComment store c.id = some c := by
  induction store with
  | nil => simp at hc
  | cons x rest ih =>
    simp only [List.map_cons, List.nodup_cons, List.mem_map] at hnd
    rcases List.mem_cons.mp hc with h | h
    · subst h
      simp [findComment, List.find?_cons]
    · have hx : (x.id == c.id) = false := by
        simp only [beq_eq_false_iff_ne, ne_eq]
        intro he
        exact hnd.1 ⟨c, h, he.symm⟩
      have := ih hnd.2 h
      simpa [findComment, List.find?_cons, hx] using this

/-- Path lookup is monotone in the fuel. -/
theorem pathTo_mono {store : List BlogComment} :
    ∀ {n i : Nat} {p : List Nat}, pathTo store n i = some p →
      ∀ {m : Nat}, n ≤ m → pathTo store m i = some p := by
  intro n
  induction n with
  | zero =>
    intro i p h
    simp [pathTo] at h
  | succ n ih =>
    intro i p h m hm
    cases m with
    | zero => omega
    | succ m =>
      unfold pathTo at h ⊢
      cases hf : findComment store i with
      | none => simp only [hf] at h; exact absurd h (by simp)
      | some c =>
        simp only [hf] at h ⊢
        cases hp : c.parent_id with
        | none => simp only [hp] at h ⊢; exact h
        | some pr =>
          simp only [hp] at h ⊢
          simp only [Option.map_eq_some'] at h ⊢
          obtain ⟨q, hq, rfl⟩ := h
          exact ⟨q, ih hq (by omega), rfl⟩

/-- Membership in the CTE row set. -/
theorem mem_ctRows {store : List BlogComment} {r : List Nat × BlogComment} :
    r ∈ ctRows store ↔ r.2 ∈ store ∧ pathTo store store.length r.2.id = some r.1 := by
  unfold ctRows
  rw [List.mem_filterMap]
  constructor
  · rintro ⟨c, hc, hf⟩
    simp only [Option.map_eq_some'] at hf
    obtain ⟨p, hp, he⟩ := hf
    cases r
    cases he
    exact ⟨hc, hp⟩
  · rintro ⟨hc, hp⟩
    exact ⟨r.2, hc, by simp [hp]⟩

/-- Sortedness of the final row sequence. -/
theorem commentTreeRows_pairwise (store : List BlogComment) :
    List.Pairwise rowLe (commentTreeRows store) :=
  List.sorted_insertionSort rowLe (ctRows store)

/-- The sort is a permutation of the CTE row set. -/
theorem commentTreeRows_perm (store : List BlogComment) :
    (commentTreeRows store).Perm (ctRows store) :=
  List.perm_insertionSort rowLe (ctRows store)

/-- A defined path certifies that the comment row exists in the store. -/
theorem findComment_of_pathTo {store : List BlogComment} :
    ∀ {n i : Nat} {q : List Nat}, pathTo store n i = some q →
      ∃ cp, findComment store i = some cp ∧ cp ∈ store ∧ cp.id = i := by
  intro n i q h
  cases n with
  | zero => simp [pathTo] at h
  | succ n =>
    unfold pathTo at h
    cases hf : findComment store i with
    | none => simp only [hf] at h; exact absurd h (by simp)
    | some cp =>
      refine ⟨cp, rfl, List.mem_of_find?_eq_some hf, ?_⟩
      have := List.find?_some hf
      simpa using this

/-- The path of a child comment is the parent's path with the child's id
appended. -/
theorem pathTo_child_decomp {store : List BlogComment}
    (hnd : (store.map (fun c => c.id)).Nodup) {c : BlogComment} (hc : c ∈ store)
    {pr : Nat} (hpar : c.parent_id = some pr) {n : Nat} {p : List Nat}
    (hp : pathTo store (n + 1) c.id = some p) :
    ∃ q, pathTo store n pr = some q ∧ p = q ++ [c.id] := by
  unfold pathTo at hp
  simp only [findComment_self hnd hc, hpar, Option.map_eq_some'] at hp
  obtain ⟨q, hq, he⟩ := hp
  exact ⟨q, hq, he.symm⟩

/-- The path of a root comment is the singleton of its id. -/
theorem pathTo_root {store : List BlogComment}
    (hnd : (store.map (fun c => c.id)).Nodup) {c : BlogComment} (hc : c ∈ store)
    (hpar : c.parent_id = none) {n : Nat} {p : List Nat}
    (hp : pathTo store (n + 1) c.id = some p) : p = [c.id] := by
  unfold pathTo at hp
  simp only [findComment_self hnd hc, hpar, Option.some.injEq] at hp
  exact hp.symm

/-- A nonempty store has successor length. -/
theorem store_length_succ {store : List BlogComment} {c : BlogComment}
    (hc : c ∈ store) : ∃ m, store.length = m + 1 := by
  cases store with
  | nil => simp at hc
  | cons x rest => exact ⟨rest.length, rfl⟩

/-- Every non-root CTE row has a matching parent row in the CTE row set, and
the child's path extends the parent's path by the child's id. -/
theorem parent_row_mem {store : List BlogComment}
    (hnd : (store.map (fun c => c.id)).Nodup) {p : List Nat} {c : BlogComment}
    (hrow : (p, c) ∈ ctRows store) {pr : Nat} (hpar : c.parent_id = some pr) :
    ∃ q cp, p = q ++ [c.id] ∧ cp.id = pr ∧ (q, cp) ∈ ctRows store := by
  obtain ⟨hc, hp⟩ := mem_ctRows.mp hrow
  obtain ⟨m, hm⟩ := store_length_succ hc
  rw [hm] at hp
  obtain ⟨q, hq, he⟩ := pathTo_child_decomp hnd hc hpar hp
  obtain ⟨cp, _, hcpmem, hcpid⟩ := findComment_of_pathTo hq
  refine ⟨q, cp, he, hcpid, mem_ctRows.mpr ⟨hcpmem, ?_⟩⟩
  rw [hcpid]
  exact pathTo_mono hq (by omega)

/-- C2: in the row sequence produced by the recursive comment-tree query
(which carries a `root` path array, appending each comment's id, and sorts by
that array), every non-root comment appears strictly after the row of its
parent: the parent's row exists at a strictly smaller index. -/
theorem parent_row_before_child_row (store : List BlogComment)
    (hnd : (store.map (fun c => c.id)).Nodup)
    (j : Nat) (row : List Nat × BlogComment) (pr : Nat)
    (hj : (commentTreeRows store)[j]? = some row)
    (hpar : row.2.parent_id = some pr) :
    ∃ i rowp, i < j ∧ (commentTreeRows store)[i]? = some rowp ∧ rowp.2.id = pr := by
  obtain ⟨hjlt, hjget⟩ := List.getElem?_eq_some.mp hj
  have hrowmem : row ∈ commentTreeRows store := hjget ▸ List.getElem_mem hjlt
  have hrowct : row ∈ ctRows store := (commentTreeRows_perm store).mem_iff.mp hrowmem
  obtain ⟨q, cp, he, hcpid, hqmem⟩ := by
    have : (row.1, row.2) ∈ ctRows store := by simpa using hrowct
    exact parent_row_mem hnd this hpar
  have hqrows : (q, cp) ∈ commentTreeRows store :=
    (commentTreeRows_perm store).mem_iff.mpr hqmem
  obtain ⟨i, hilt, higet⟩ := List.getElem_of_mem hqrows
  have hij : i < j := by
    rcases Nat.lt_trichotomy i j with h | h | h
    · exact h
    · exfalso
      subst h
      have hrq : row = (q, cp) := by rw [← hjget, higet]
      have hq1 : row.1 = q := by rw [hrq]
      rw [he] at hq1
      simpa using congrArg List.length hq1
    · exfalso
      have hpl := (List.pairwise_iff_get.mp (commentTreeRows_pairwise store))
        ⟨j, hjlt⟩ ⟨i, hilt⟩ h
      simp only [List.get_eq_getElem, higet, hjget] at hpl
      have : pathLe (q ++ [row.2.id]) q = true := by
        have hr : pathLe row.1 q = true := hpl
        rw [he] at hr
        exact hr
      rw [pathLe_extension_not] at this
      exact absurd this (by simp)
  exact ⟨i, (q, cp), hij, List.getElem?_eq_some.mpr ⟨hilt, higet⟩, hcpid⟩

/-- Sibling CTE rows share the path prefix: each row's path is the common
parent path (empty for roots) extended by its own id. -/
theorem sibling_rows_common_prefix {store : List BlogComment}
    (hnd : (store.map (fun c => c.id)).Nodup)
    {ri rj : List Nat × BlogComment}
    (hri : ri ∈ ctRows store) (hrj : rj ∈ ctRows store)
    (hsib : ri.2.parent_id = rj.2.parent_id) :
    ∃ q, ri.1 = q ++ [ri.2.id] ∧ rj.1 = q ++ [rj.2.id] := by
  obtain ⟨hci, hpi⟩ := mem_ctRows.mp hri
  obtain ⟨hcj, hpj⟩ := mem_ctRows.mp hrj
  obtain ⟨m, hm⟩ := store_length_succ hci
  rw [hm] at hpi hpj
  cases hpar : ri.2.parent_id with
  | none =>
    rw [hpar] at hsib
    have h1 := pathTo_root hnd hci hpar hpi
    have h2 := pathTo_root hnd hcj hsib.symm hpj
    exact ⟨[], by simp [h1], by simp [h2]⟩
  | some pr =>
    rw [hpar] at hsib
    obtain ⟨q1, hq1, he1⟩ := pathTo_child_decomp hnd hci hpar hpi
    obtain ⟨q2, hq2, he2⟩ := pathTo_child_decomp hnd hcj hsib.symm hpj
    rw [hq1] at hq2
    have hq : q1 = q2 := Option.some.inj hq2
    exact ⟨q1, he1, hq ▸ he2⟩

/-- C3 (amended): under sort=best, any two distinct sibling comments in the
row sequence of the tree query are ordered by comment id ascending — `a`
precedes `b` iff `a.id < b.id` (the final `ORDER BY root` compares sibling
paths by their last element, the comment id; the `(upvote DESC, created_at
ASC)` ordering only selects which root comments survive `LIMIT`/`OFFSET` and
does not order the final row sequence). -/
theorem best_sort_sibling_rows_ordered_by_id (store : List BlogComment)
    (hnd : (store.map (fun c => c.id)).Nodup)
    (i j : Nat) (ri rj : List Nat × BlogComment)
    (hi : (commentTreeRows store)[i]? = some ri)
    (hj : (commentTreeRows store)[j]? = some rj)
    (hsib : ri.2.parent_id = rj.2.parent_id)
    (hne : ri.2.id ≠ rj.2.id) :
    i < j ↔ ri.2.id < rj.2.id := by
  obtain ⟨hilt, higet⟩ := List.getElem?_eq_some.mp hi
  obtain ⟨hjlt, hjget⟩ := List.getElem?_eq_some.mp hj
  have hmi : ri ∈ ctRows store :=
    (commentTreeRows_perm store).mem_iff.mp (higet ▸ List.getElem_mem hilt)
  have hmj : rj ∈ ctRows store :=
    (commentTreeRows_perm store).mem_iff.mp (hjget ▸ List.getElem_mem hjlt)
  obtain ⟨q, he1, he2⟩ := sibling_rows_common_prefix hnd hmi hmj hsib
  constructor
  · intro hij
    have hpl := (List.pairwise_iff_get.mp (commentTreeRows_pairwise store))
      ⟨i, hilt⟩ ⟨j, hjlt⟩ hij
    simp only [List.get_eq_getElem, higet, hjget] at hpl
    have hle : pathLe (q ++ [ri.2.id]) (q ++ [rj.2.id]) = true := by
      rw [← he1, ← he2]; exact hpl
    have := (pathLe_append_last_iff q _ _).mp hle
    omega
  · intro hab
    rcases Nat.lt_trichotomy i j with h | h | h
    · exact h
    · exfalso
      subst h
      have hrr : ri = rj := by rw [← higet, hjget]
      exact hne (by rw [hrr])
    · exfalso
      have hpl := (List.pairwise_iff_get.mp (commentTreeRows_pairwise store))
        ⟨j, hjlt⟩ ⟨i, hilt⟩ h
      simp only [List.get_eq_getElem, higet, hjget] at hpl
      have hle : pathLe (q ++ [rj.2.id]) (q ++ [ri.2.id]) = true := by
        rw [← he1, ← he2]; exact hpl
      have := (pathLe_append_last_iff q _ _).mp hle
      omega

/-- Position of the row of comment `cid` in the final row sequence. -/
def rowIndexOf (store : List BlogComment) (cid : Nat) : Option Nat :=
  (commentTreeRows store).findIdx? (fun r => r.2.id == cid)

/-- Comment `x` precedes comment `y` in the row sequence the tree query
returns. -/
def rowPrecedes (store : List BlogComment) (x y : Nat) : Bool :=
  match rowIndexOf store x, rowIndexOf store y with
  | some i, some j => decide (i < j)
  | _, _ => false

/-- First root comment of the C3 counterexample store: lower id, lower
upvote. -/
def exCA : BlogComment := ⟨1, 10, none, some "ann", none, "a", 0, 0⟩

/-- Second root comment of the C3 counterexample store: higher id, higher
upvote. -/
def exCB : BlogComment := ⟨2, 10, none, some "bob", none, "b", 1, 5⟩

/-- The C3 counterexample store: two sibling (root) comments. -/
def exStoreBest : List BlogComment := [exCA, exCB]

/-- C3 counterexample: for the two sibling root comments `exCA` (id 1,
upvote 0) and `exCB` (id 2, upvote 5) the claimed order is false — the tree
query puts `exCA` first (final `ORDER BY root` sorts by id), while the claim
("`a` precedes `b` iff `a.upvote > b.upvote`, or equal upvotes and
`a.created_at <= b.created_at`") demands `exCB` first. -/
theorem best_sort_claim_counterexample :
    ¬ (rowPrecedes exStoreBest exCA.id exCB.id = true ↔
        (exCB.upvote < exCA.upvote ∨
          (exCA.upvote = exCB.upvote ∧ exCA.created_at ≤ exCB.created_at))) := by
  decide

/-- The example store used by the C2 and C3 witnesses: a root, two replies to
it, and a reply to the first reply. -/
def exStore4 : List BlogComment := [exR1, exR2, exR3, exR4]

/-- C2 witness: in the concrete store the row of comment 2 (a reply to
comment 1) sits at index 1 of the sorted sequence, and comment 1's row indeed
appears strictly before it. -/
theorem parent_row_before_child_row_witness :
    ∃ i rowp, i < 1 ∧ (commentTreeRows exStore4)[i]? = some rowp ∧ rowp.2.id = 1 :=
  parent_row_before_child_row exStore4 (by decide) 1 ([1, 2], exR2) 1
    (by decide) (by decide)

/-- C3 amended-claim witness: comments 2 and 4 are siblings under comment 1;
their rows sit at indices 1 and 3, and the order matches id order. -/
theorem best_sort_sibling_rows_ordered_by_id_witness :
    1 < 3 ↔ ([1, 2], exR2).2.id < ([1, 4], exR4).2.id :=
  best_sort_sibling_rows_ordered_by_id exStore4 (by decide) 1 3
    ([1, 2], exR2) ([1, 4], exR4) (by decide) (by decide) (by decide) (by decide)

/-! ### JSON values and the API error body

The Rust service is not part of the source tree; its wire format is modelled
from the specification (§6, §7) and checked against the client-side parsers
that are in the tree (`ApiError` in the rpc module, the `FeedItem` interface
in `RecommenderFeedSolid.tsx`). -/

/-- A JSON value.  Numbers are modelled as rationals. -/
inductive Json where
  | null : Json
  | bool (b : Bool) : Json
  | num (q : ℚ) : Json
  | str (s : String) : Json
  | arr (xs : List Json) : Json
  | obj (fields : List (String × Json)) : Json

/-- Field lookup on a JSON object; `none` on non-objects and absent keys. -/
def getField (j : Json) (k : String) : Option Json :=
  match j with
  | .obj fs => (fs.find? (fun f => f.1 == k)).map (fun f => f.2)
  | _ => none

/-- The keys of a JSON object (empty for non-objects). -/
def jsonObjKeys (j : Json) : List String :=
  match j with
  | .obj fs => fs.map (fun f => f.1)
  | _ => []

/-- Modelled from the spec: the error body `{error?, msg, reason?}` the API
serializes for every user-visible failure (§6/§7; the Rust handlers that
build it are not under src/).  Optional fields are omitted when absent,
mirroring the client schema that accepts a missing key. -/
structure ApiErrorBody where
  error : Option String
  msg : String
  reason : Option String
deriving DecidableEq

/-- Serialization of an error body (modelled from the spec: `{error?, msg,
reason?}` with no other fields). -/
def encodeApiError (e : ApiErrorBody) : Json :=
  .obj ((match e.error with
          | some s => [("error", Json.str s)]
          | none => []) ++
        [("msg", Json.str e.msg)] ++
        (match e.reason with
          | some s => [("reason", Json.str s)]
          | none => []))

/-- The parsed form of an error body on the client. -/
structure ParsedApiError where
  error : Option String
  msg : String
  reason : Option String
deriving DecidableEq

/-- An optional string field of the client `ApiError` zod schema
(`z.optional(z.string())`): an absent key parses to `none`, a string parses
to `some`, anything else fails. -/
def parseOptStringField (j : Json) (k : String) : Option (Option String) :=
  match getField j k with
  | none => some none
  | some (.str s) => some (some s)
  | some _ => none

/-- The client `ApiError` parser (the zod schema in the rpc module:
`z.object({error: z.optional(z.string()), msg: z.string(), reason:
z.optional(z.string())})`): requires an object with a string `msg`, allows
optional string `error` and `reason`. -/
def apiErrorParse (j : Json) : Option ParsedApiError :=
  match j with
  | .obj _ =>
    match getField j "msg" with
    | some (.str m) =>
      match parseOptStringField j "error", parseOptStringField j "reason" with
      | some e, some r => some ⟨e, m, r⟩
      | _, _ => none
    | _ => none
  | _ => none

/-- C8: every error response body of the API parses under the client schema
as an object with the required string field `msg` and the optional string
fields `error` and `reason`, and carries no other field (no stack trace or
internal detail). -/
theorem api_error_body_shape (e : ApiErrorBody) :
    apiErrorParse (encodeApiError e) = some ⟨e.error, e.msg, e.reason⟩ ∧
    ∀ k ∈ jsonObjKeys (encodeApiError e),
      k = "error" ∨ k = "msg" ∨ k = "reason" := by
  obtain ⟨er, msg, rs⟩ := e
  cases er <;> cases rs <;>
    simp [encodeApiError, apiErrorParse, parseOptStringField, getField, jsonObjKeys]

/-- A per-source entry of a feed item, from the `SourceInfo` interface the
client declares (`RecommenderFeedSolid.tsx`). -/
structure SourceInfo where
  key : String
  score : Option ℚ
  external_id : Option String
deriving DecidableEq

/-- A feed item, from the `FeedItem` interface the client declares
(`RecommenderFeedSolid.tsx`): `{id, title, url, score, similarity_score,
submitted_at, sources}` with the latter two nullable. -/
structure FeedItem where
  id : Nat
  title : String
  url : String
  score : ℚ
  similarity_score : Option ℚ
  submitted_at : Option String
  sources : List SourceInfo
deriving DecidableEq

/-- Modelled from the spec: serialization of one source entry (the Rust
serializer is not under src/); absent optionals serialize as `null`, as the
nullable client fields expect. -/
def encodeSourceInfo (s : SourceInfo) : Json :=
  .obj [("key", Json.str s.key),
        ("score", match s.score with | some q => Json.num q | none => Json.null),
        ("external_id",
          match s.external_id with | some t => Json.str t | none => Json.null)]

/-- Modelled from the spec: serialization of one feed item. -/
def encodeFeedItem (it : FeedItem) : Json :=
  .obj [("id", Json.num it.id),
        ("title", Json.str it.title),
        ("url", Json.str it.url),
        ("score", Json.num it.score),
        ("similarity_score",
          match it.similarity_score with | some q => Json.num q | none => Json.null),
        ("submitted_at",
          match it.submitted_at with | some t => Json.str t | none => Json.null),
        ("sources", Json.arr (it.sources.map encodeSourceInfo))]

/-- Modelled from the spec: the successful `GET /feed` response body
`{items: FeedItem[]}`. -/
def encodeFeedSnapshot (items : List FeedItem) : Json :=
  .obj [("items", Json.arr (items.map encodeFeedItem))]

/-- Does a JSON value carry a required field of the right shape? -/
def hasStrField (j : Json) (k : String) : Bool :=
  match getField j k with
  | some (.str _) => true
  | _ => false

/-- A required numeric field. -/
def hasNumField (j : Json) (k : String) : Bool :=
  match getField j k with
  | some (.num _) => true
  | _ => false

/-- An optional numeric field: absent or `null` or a number. -/
def optNumField (j : Json) (k : String) : Bool :=
  match getField j k with
  | none => true
  | some .null => true
  | some (.num _) => true
  | some _ => false

/-- An optional string field: absent or `null` or a string. -/
def optStrField (j : Json) (k : String) : Bool :=
  match getField j k with
  | none => true
  | some .null => true
  | some (.str _) => true
  | some _ => false

/-- The claimed shape of a source entry: `{key, score?, external_id?}`. -/
def sourceInfoShape (j : Json) : Bool :=
  hasStrField j "key" && optNumField j "score" && optStrField j "external_id"

/-- The claimed shape of a feed item: fields `id`, `title`, `url`, `score`,
optional `similarity_score`, optional `submitted_at`, and `sources` a list of
source entries. -/
def feedItemShape (j : Json) : Bool :=
  hasNumField j "id" && hasStrField j "title" && hasStrField j "url" &&
  hasNumField j "score" && optNumField j "similarity_score" &&
  optStrField j "submitted_at" &&
  (match getField j "sources" with
   | some (.arr xs) => xs.all sourceInfoShape
   | _ => false)

/-- The claimed shape of a successful `GET /feed` response:
`{items: FeedItem[]}`. -/
def feedResponseShape (j : Json) : Bool :=
  match getField j "items" with
  | some (.arr xs) => xs.all feedItemShape
  | _ => false

theorem sourceInfoShape_encode (s : SourceInfo) :
    sourceInfoShape (encodeSourceInfo s) = true := by
  obtain ⟨k, sc, ex⟩ := s
  cases sc <;> cases ex <;>
    simp [encodeSourceInfo, sourceInfoShape, hasStrField, optNumField,
      optStrField, getField]

theorem feedItemShape_encode (it : FeedItem) :
    feedItemShape (encodeFeedItem it) = true := by
  obtain ⟨i, t, u, sc, sim, sub, srcs⟩ := it
  cases sim <;> cases sub <;>
  · simp [encodeFeedItem, feedItemShape, hasNumField, hasStrField,
      optNumField, optStrField, getField, List.all_eq_true]
    intro s hs
    exact sourceInfoShape_encode s

/-- C5: every successful `GET /feed` response has shape
`{items: FeedItem[]}` where each item carries `id`, `title`, `url`, `score`,
optional `similarity_score`, optional `submitted_at`, and `sources` as a list
of `{key, score?, external_id?}` objects. -/
theorem feed_response_has_shape (items : List FeedItem) :
    feedResponseShape (encodeFeedSnapshot items) = true := by
  simp [encodeFeedSnapshot, feedResponseShape, getField, List.all_eq_true]
  intro it hit
  exact feedItemShape_encode it

/-! ### The feed ranking engine (modelled from the spec, §4.1)

The Rust ranking engine is not under src/; the schema it queries is
(`src/prisma/migrations/...`: `online_articles`, `online_article_metadata`
with `submitted_at` and `external_score`, `online_article_chunks` with
384-dimensional embeddings, `user_history` with weights).  The engine is
modelled from §4.1 of the specification, on top of that schema. -/

/-- The four ranking presets of the client/API contract. -/
inductive RankingPreset where
  | balanced
  | top_first
  | newer_first
  | similar_first
deriving DecidableEq

/-- A validated source filter: everything, or one registered source key. -/
inductive SourceFilter where
  | all
  | bySource (key : String)
deriving DecidableEq

/-- Modelled from the spec: a candidate article joined with its per-source
metadata and its embedding chunks, as the ranking engine sees it. -/
structure FeedArticle where
  id : Nat
  title : String
  url : String
  submitted_at : Nat
  external_score : ℚ
  source_keys : List String
  chunks : List (List ℚ)
deriving DecidableEq

/-- A `user_history` row: an article reference with a float weight. -/
structure HistoryEntry where
  article_id : Nat
  weight : ℚ
deriving DecidableEq

/-- Pointwise vector sum. -/
def vecAdd (a b : List ℚ) : List ℚ := List.zipWith (· + ·) a b

/-- Scalar multiple of a vector. -/
def vecScale (c : ℚ) (v : List ℚ) : List ℚ := v.map (fun x => c * x)

/-- The weighted chunks of the identity's history: every chunk of every
history article, tagged with the history weight (the `history_chunks` join). -/
def historyChunks (articles : List FeedArticle) (history : List HistoryEntry) :
    List (ℚ × List ℚ) :=
  history.flatMap (fun h =>
    match articles.find? (fun a => a.id == h.article_id) with
    | some a => a.chunks.map (fun ch => (h.weight, ch))
    | none => [])

/-- Modelled from the spec: the identity's history-weighted embedding
centroid, `Σ weight_i * embedding_i / Σ weight_i` over the history chunks;
`none` when the identity has no history entries. -/
def userCentroid (articles : List FeedArticle) (history : List HistoryEntry) :
    Option (List ℚ) :=
  match history with
  | [] => none
  | _ :: _ =>
    let hc := historyChunks articles history
    let total := (hc.map (fun p => p.1)).sum
    some (vecScale (1 / total)
      ((hc.map (fun p => vecScale p.1 p.2)).foldl vecAdd (List.replicate 384 0)))

/-- Modelled from the spec: an article's similarity to the centroid is the
best (maximum) similarity over its chunks; `none` for an article without
chunks.  The similarity measure itself (cosine similarity as pgvector
computes it) is abstract, passed in as `simf`. -/
def articleSimilarity (simf : List ℚ → List ℚ → ℚ) (cen : List ℚ)
    (a : FeedArticle) : Option ℚ :=
  match a.chunks.map (simf cen) with
  | [] => none
  | s :: ss => some (ss.foldl max s)

/-- Source filtering of the candidate set. -/
def applySourceFilter (src : SourceFilter) (articles : List FeedArticle) :
    List FeedArticle :=
  match src with
  | .all => articles
  | .bySource k => articles.filter (fun a => a.source_keys.contains k)

/-- Modelled from the spec: the per-preset blend weights, an immutable
configuration injected into the engine. -/
structure RankWeights where
  recency : ℚ
  score : ℚ
  similarity : ℚ
deriving DecidableEq

/-- Composite ordering of the ranked page: score strictly descending, ties
broken by article id descending. -/
def rankKeyLe (key : FeedArticle → ℚ) (a b : FeedArticle) : Bool :=
  decide (key b < key a) || (decide (key a = key b) && decide (b.id ≤ a.id))

/-- Ordered insertion for the ranked sort. -/
def insertRanked (key : FeedArticle → ℚ) (a : FeedArticle) :
    List FeedArticle → List FeedArticle
  | [] => [a]
  | b :: bs => if rankKeyLe key a b then a :: b :: bs else b :: insertRanked key a bs

/-- Sort of the candidate set by a score key (descending, id-descending
ties). -/
def sortRanked (key : FeedArticle → ℚ) : List FeedArticle → List FeedArticle
  | [] => []
  | a :: rest => insertRanked key a (sortRanked key rest)

/-- Modelled from the spec: the `balanced` composite score, a weighted blend
of recency, external score and similarity-to-history (the similarity
contribution is zero when the identity has no usable centroid). -/
def balancedScore (simf : List ℚ → List ℚ → ℚ) (w : RankWeights)
    (cen : Option (List ℚ)) (a : FeedArticle) : ℚ :=
  w.recency * (a.submitted_at : ℚ) + w.score * a.external_score +
    w.similarity *
      (match cen with
       | none => 0
       | some c => (articleSimilarity simf c a).getD 0)

/-- Modelled from the spec (§4.1): the feed ranking engine.  Given a preset,
the identity's history and a validated source filter, produce the page
`offset`/`limit` of the final ranked order.  `similar_first` falls back to
the `balanced` ordering when the identity has no history (no centroid). -/
def rankFeed (simf : List ℚ → List ℚ → ℚ) (w : RankWeights)
    (preset : RankingPreset) (articles : List FeedArticle)
    (history : List HistoryEntry) (src : SourceFilter)
    (offset limit : Nat) : List FeedArticle :=
  let filtered := applySourceFilter src articles
  let cen := userCentroid articles history
  let ranked :=
    match preset with
    | .balanced => sortRanked (balancedScore simf w cen) filtered
    | .top_first =>
      sortRanked (fun a => a.external_score) filtered
    | .newer_first =>
      sortRanked (fun a => (a.submitted_at : ℚ)) filtered
    | .similar_first =>
      match cen with
      | none => sortRanked (balancedScore simf w cen) filtered
      | some c =>
        sortRanked (fun a => (articleSimilarity simf c a).getD 0) filtered
  (ranked.drop offset).take limit

/-- Parse the raw `ranking` query parameter; unknown values are a validation
error, not a silent fallback. -/
def parseRanking (s : String) : Option RankingPreset :=
  if s = "balanced" then some .balanced
  else if s = "top_first" then some .top_first
  else if s = "newer_first" then some .newer_first
  else if s = "similar_first" then some .similar_first
  else none

/-- Parse the raw `source` query parameter against the registered source
keys; unknown values are a validation error. -/
def parseSource (knownKeys : List String) (s : String) : Option SourceFilter :=
  if s = "all" then some .all
  else if knownKeys.contains s then some (.bySource s)
  else none

/-- Modelled from the spec: the `GET /feed` handler — validate the raw
`ranking` and `source` parameters, then rank; validation failures surface as
an error body, ranking itself cannot fail. -/
def handleFeedRequest (simf : List ℚ → List ℚ → ℚ) (w : RankWeights)
    (knownKeys : List String) (articles : List FeedArticle)
    (history : List HistoryEntry) (offset limit : Nat)
    (rawSource rawRanking : String) : Except ApiErrorBody (List FeedArticle) :=
  match parseRanking rawRanking with
  | none => .error ⟨none, "validation error", some "invalid ranking preset"⟩
  | some preset =>
    match parseSource knownKeys rawSource with
    | none => .error ⟨none, "validation error", some "invalid source filter"⟩
    | some src => .ok (rankFeed simf w preset articles history src offset limit)

/-- C4: a `similar_first` feed request from an identity with zero
reading-history entries returns exactly the `balanced` page for the same
offset, limit and source filter, and never returns an error. -/
theorem similar_first_empty_history_degrades (simf : List ℚ → List ℚ → ℚ)
    (w : RankWeights) (knownKeys : List String) (articles : List FeedArticle)
    (history : List HistoryEntry) (offset limit : Nat) (rawSource : String)
    (hh : history = [])
    (hsrc : (parseSource knownKeys rawSource).isSome) :
    handleFeedRequest simf w knownKeys articles history offset limit
        rawSource "similar_first"
      = handleFeedRequest simf w knownKeys articles history offset limit
          rawSource "balanced" ∧
    (handleFeedRequest simf w knownKeys articles history offset limit
        rawSource "similar_first").isOk := by
  subst hh
  obtain ⟨src, hsrc'⟩ := Option.isSome_iff_exists.mp hsrc
  unfold handleFeedRequest
  rw [hsrc']
  simp only [parseRanking, if_neg, if_pos]
  constructor
  · rfl
  · rfl

/-- C4 witness: a concrete `similar_first` request with empty history over
two articles equals the `balanced` request and succeeds. -/
theorem similar_first_empty_history_degrades_witness :
    (handleFeedRequest (fun _ _ => 0) ⟨1, 1, 1⟩ ["hacker-news"]
        [⟨1, "a", "u1", 5, 10, ["hacker-news"], [[1, 0]]⟩,
         ⟨2, "b", "u2", 9, 3, ["hacker-news"], [[0, 1]]⟩]
        [] 0 20 "all" "similar_first"
      = handleFeedRequest (fun _ _ => 0) ⟨1, 1, 1⟩ ["hacker-news"]
        [⟨1, "a", "u1", 5, 10, ["hacker-news"], [[1, 0]]⟩,
         ⟨2, "b", "u2", 9, 3, ["hacker-news"], [[0, 1]]⟩]
        [] 0 20 "all" "balanced") ∧
    (handleFeedRequest (fun _ _ => 0) ⟨1, 1, 1⟩ ["hacker-news"]
        [⟨1, "a", "u1", 5, 10, ["hacker-news"], [[1, 0]]⟩,
         ⟨2, "b", "u2", 9, 3, ["hacker-news"], [[0, 1]]⟩]
        [] 0 20 "all" "similar_first").isOk :=
  similar_first_empty_history_degrades (fun _ _ => 0) ⟨1, 1, 1⟩ ["hacker-news"]
    [⟨1, "a", "u1", 5, 10, ["hacker-news"], [[1, 0]]⟩,
     ⟨2, "b", "u2", 9, 3, ["hacker-news"], [[0, 1]]⟩]
    [] 0 20 "all" rfl (by decide)

/-! ### The feed change notifier stream and its client (C6)

`RecommenderFeedSolid.tsx` opens `/feed/stream` and accumulates the `count`
of every `NewEntries` event into `newItemsCount`; the count itself is the
number of articles the server found past the connection watermark (modelled
from the spec, §4.2), hence a natural number. -/

/-- A message of the `/feed/stream` event source as the client's `onmessage`
handler classifies it: a parsed `NewEntries` event carrying a count of newly
ingested articles, a parsed event of another type, or an unparsable payload. -/
inductive StreamMsg where
  | newEntries (count : Nat)
  | other (kind : String)
  | malformed
deriving DecidableEq

/-- The `onmessage` handler of `RecommenderFeedSolid.tsx`: a `NewEntries`
event adds its count to `newItemsCount`
(`setNewItemsCount((prev) => prev + feedEvent.data.count)`); any other or
unparsable event leaves the accumulator unchanged. -/
def onStreamMessage (newItemsCount : Nat) (e : StreamMsg) : Nat :=
  match e with
  | .newEntries c => newItemsCount + c
  | .other _ => newItemsCount
  | .malformed => newItemsCount

/-- Modelled from the spec (§4.2): one poll tick of the feed change notifier.
Articles ingested strictly after the watermark are counted; when the count is
positive one `NewEntries` event is emitted and the watermark advances. -/
def pollTick (articleTimes : List Nat) (watermark : Nat) :
    Option StreamMsg × Nat :=
  let fresh := articleTimes.filter (fun ts => watermark < ts)
  if 0 < fresh.length then
    (some (.newEntries fresh.length), fresh.foldl max watermark)
  else
    (none, watermark)

/-- C6: over a `/feed/stream` connection, the client's accumulated
`newItemsCount` is monotonically non-decreasing — processing any single
event never decreases it, and neither does processing any sequence of
events. -/
theorem new_items_count_monotone (n : Nat) (e : StreamMsg)
    (events : List StreamMsg) :
    n ≤ onStreamMessage n e ∧ n ≤ events.foldl onStreamMessage n := by
  constructor
  · cases e <;> simp [onStreamMessage]
  · induction events generalizing n with
    | nil => exact le_refl n
    | cons e' rest ih =>
      have h1 : n ≤ onStreamMessage n e' := by cases e' <;> simp [onStreamMessage]
      exact le_trans h1 (ih _)

/-! ### The client-rendered comment tree (C7, C9, C10)

The Solid components keep the fetched tree in per-component signals: a
comment's non-content fields come from props, `content` and `children` are
signals (`Comment.tsx`).  The tree is modelled as a node/forest pair of
mutually inductive types mirroring the client's `Comment` interface. -/

mutual
/-- One rendered comment with the fields of the client `Comment` interface
(`CommentSection.tsx`): `{id, author_name, content, parent_id?, created_at,
children?, upvote, depth, is_blog_author?, is_comment_owner?}`. -/
inductive CommentNode where
  | mk (id : Nat) (author_name : String) (content : String)
      (parent_id : Option Nat) (created_at : String) (upvote : Int)
      (depth : Nat) (is_blog_author : Option Bool)
      (is_comment_owner : Option Bool) (children : CommentForest)

/-- A rendered list of sibling comment subtrees. -/
inductive CommentForest where
  | nil
  | cons (t : CommentNode) (ts : CommentForest)
end

/-- The id of a rendered comment. -/
def CommentNode.id : CommentNode → Nat
  | .mk i _ _ _ _ _ _ _ _ _ => i

/-- The author name of a rendered comment. -/
def CommentNode.author_name : CommentNode → String
  | .mk _ an _ _ _ _ _ _ _ _ => an

/-- The markdown content of a rendered comment. -/
def CommentNode.content : CommentNode → String
  | .mk _ _ co _ _ _ _ _ _ _ => co

/-- The parent id of a rendered comment. -/
def CommentNode.parent_id : CommentNode → Option Nat
  | .mk _ _ _ pid _ _ _ _ _ _ => pid

/-- The creation timestamp string of a rendered comment. -/
def CommentNode.created_at : CommentNode → String
  | .mk _ _ _ _ ca _ _ _ _ _ => ca

/-- The vote score of a rendered comment. -/
def CommentNode.upvote : CommentNode → Int
  | .mk _ _ _ _ _ uv _ _ _ _ => uv

/-- The depth of a rendered comment. -/
def CommentNode.depth : CommentNode → Nat
  | .mk _ _ _ _ _ _ dp _ _ _ => dp

/-- The blog-author badge flag of a rendered comment. -/
def CommentNode.is_blog_author : CommentNode → Option Bool
  | .mk _ _ _ _ _ _ _ ba _ _ => ba

/-- The ownership flag of a rendered comment. -/
def CommentNode.is_comment_owner : CommentNode → Option Bool
  | .mk _ _ _ _ _ _ _ _ ow _ => ow

/-- The rendered children of a rendered comment. -/
def CommentNode.children : CommentNode → CommentForest
  | .mk _ _ _ _ _ _ _ _ _ ch => ch

/-- The edit-success path of `Comment.tsx`: `setEditing(false, comment.content)`
feeds the new content into the `content` signal (`setContent(newContent)`);
every other rendered field is untouched. -/
def applyEditSuccess : CommentNode → String → CommentNode
  | .mk i an _ pid ca uv dp ba ow ch, newContent =>
    .mk i an newContent pid ca uv dp ba ow ch

/-- The PATCH request body of the edit flow (`CommentEditing.handleCommentSubmit`):
`JSON.stringify({content: form.content.value})`. -/
def editRequestBody (newContent : String) : Json :=
  .obj [("content", Json.str newContent)]

/-- C7: a successful edit changes only the content — the PATCH request
carries only the new content, and in the subsequently rendered comment every
field other than `content` (id, author_name, created_at, parent_id, upvote,
depth, badges, ownership flag, children) is unchanged. -/
theorem edit_changes_only_content (c : CommentNode) (nc : String) :
    (applyEditSuccess c nc).content = nc ∧
    (applyEditSuccess c nc).id = c.id ∧
    (applyEditSuccess c nc).author_name = c.author_name ∧
    (applyEditSuccess c nc).created_at = c.created_at ∧
    (applyEditSuccess c nc).parent_id = c.parent_id ∧
    (applyEditSuccess c nc).upvote = c.upvote ∧
    (applyEditSuccess c nc).depth = c.depth ∧
    (applyEditSuccess c nc).is_blog_author = c.is_blog_author ∧
    (applyEditSuccess c nc).is_comment_owner = c.is_comment_owner ∧
    (applyEditSuccess c nc).children = c.children ∧
    jsonObjKeys (editRequestBody nc) = ["content"] := by
  cases c
  simp [applyEditSuccess, CommentNode.content, CommentNode.id,
    CommentNode.author_name, CommentNode.created_at, CommentNode.parent_id,
    CommentNode.upvote, CommentNode.depth, CommentNode.is_blog_author,
    CommentNode.is_comment_owner, CommentNode.children, editRequestBody,
    jsonObjKeys]

/-- The create-success path of `CommentSubmission.handleCommentSubmit`: the
comment parsed from the response gets `is_comment_owner = true`
(`comment.is_comment_owner = true`) before being handed to `unshift`. -/
def setCommentOwner : CommentNode → CommentNode
  | .mk i an co pid ca uv dp ba _ ch => .mk i an co pid ca uv dp ba (some true) ch

/-- The view update after a successful create: the owned comment is
unshifted to the front of the sibling list (`props.unshift(comment)` with
`[c, ...(children ?? [])]`). -/
def handleCreateSuccess (resp : CommentNode) (view : CommentForest) :
    CommentForest :=
  .cons (setCommentOwner resp) view

/-- C9: after a successful create, the comment as seen in the creator's own
view — the newly unshifted head of the sibling list — has
`is_comment_owner = true`, and is the response comment itself apart from
that flag. -/
theorem created_comment_is_owned (resp : CommentNode) (view : CommentForest) :
    ∃ hd, handleCreateSuccess resp view = .cons hd view ∧
      hd.is_comment_owner = some true ∧
      hd.id = resp.id ∧ hd.content = resp.content ∧
      hd.author_name = resp.author_name ∧ hd.parent_id = resp.parent_id := by
  cases resp
  exact ⟨_, rfl, rfl, rfl, rfl, rfl, rfl⟩

/-- The `children?.filter((child) => child.id !== c.id)` (`Comment.tsx`) and
`comments?.filter((comment) => comment.id !== c.id)` (`CommentSection.tsx`)
update: drop the sibling subtrees rooted at the deleted id. -/
def filterOutChild (cid : Nat) : CommentForest → CommentForest
  | .nil => .nil
  | .cons t ts =>
    if t.id = cid then filterOutChild cid ts else .cons t (filterOutChild cid ts)

mutual
/-- The client delete propagation inside one subtree: the `onDelete` closure
a parent hands to each child (`Comment.tsx`) filters the deleted id out of
that parent's `children` signal; every other node keeps its children. -/
def removeFromTree (pid cid : Nat) : CommentNode → CommentNode
  | .mk i an co pr ca uv dp ba ow ch =>
    if i = pid then .mk i an co pr ca uv dp ba ow (filterOutChild cid ch)
    else .mk i an co pr ca uv dp ba ow (removeFromForest pid cid ch)

/-- The delete propagation over a sibling list. -/
def removeFromForest (pid cid : Nat) : CommentForest → CommentForest
  | .nil => .nil
  | .cons t ts => .cons (removeFromTree pid cid t) (removeFromForest pid cid ts)
end

/-- The client's DELETE response handling (`Comment.tsx` delete `onClick` and
the `onDelete` chain): on status 200 the deleted comment is filtered out of
its parent's children (or out of the top-level list when it is a root
comment); on any other status the handler only surfaces an error and the
rendered tree is left untouched. -/
def handleDeleteResponse (status : Nat) (forest : CommentForest)
    (pid : Option Nat) (cid : Nat) : CommentForest :=
  if status = 200 then
    match pid with
    | none => filterOutChild cid forest
    | some p => removeFromForest p cid forest
  else forest

mutual
/-- All nodes of a subtree, the root first. -/
def treeNodes : CommentNode → List CommentNode
  | .mk i an co pr ca uv dp ba ow ch =>
    .mk i an co pr ca uv dp ba ow ch :: forestNodes ch

/-- All nodes of a forest, in rendering order. -/
def forestNodes : CommentForest → List CommentNode
  | .nil => []
  | .cons t ts => treeNodes t ++ forestNodes ts
end

/-- The comment ids of a subtree, in rendering order. -/
def treeIds (t : CommentNode) : List Nat := (treeNodes t).map CommentNode.id

/-- The comment ids of a forest, in rendering order. -/
def forestIds (f : CommentForest) : List Nat := (forestNodes f).map CommentNode.id

/-- Top-level membership in a sibling list. -/
def ForestMem (t : CommentNode) : CommentForest → Prop
  | .nil => False
  | .cons s ts => t = s ∨ ForestMem t ts

/-- Where the deleted comment lives: a root comment of the top-level list, or
a direct child of the node with id `pid`. -/
def LocatedAt (forest : CommentForest) (pid : Option Nat) (ct : CommentNode) : Prop :=
  match pid with
  | none => ForestMem ct forest
  | some p => ∃ pn, pn ∈ forestNodes forest ∧ pn.id = p ∧ ForestMem ct pn.children

theorem treeIds_mk (i : Nat) (an co : String) (pr : Option Nat) (ca : String)
    (uv : Int) (dp : Nat) (ba ow : Option Bool) (ch : CommentForest) :
    treeIds (.mk i an co pr ca uv dp ba ow ch) = i :: forestIds ch := by
  simp [treeIds, treeNodes, forestIds, CommentNode.id]

theorem forestIds_nil : forestIds .nil = [] := rfl

theorem forestIds_cons (t : CommentNode) (ts : CommentForest) :
    forestIds (.cons t ts) = treeIds t ++ forestIds ts := by
  simp [forestIds, forestNodes, treeIds]

/-- A subtree's root is among its nodes. -/
theorem self_mem_treeNodes (t : CommentNode) : t ∈ treeNodes t := by
  cases t
  simp [treeNodes]

/-- A node's own id heads its id list. -/
theorem id_mem_treeIds (t : CommentNode) : t.id ∈ treeIds t := by
  cases t
  simp [treeIds_mk, CommentNode.id]

mutual
/-- Ids of a subtree rooted inside `t` are ids of `t`. -/
theorem treeIds_sub_tree : ∀ (t : CommentNode) {pn : CommentNode},
    pn ∈ treeNodes t → treeIds pn ⊆ treeIds t
  | .mk i an co pr ca uv dp ba ow ch, pn, hmem => by
    have hmem' : pn = .mk i an co pr ca uv dp ba ow ch ∨ pn ∈ forestNodes ch := by
      simpa [treeNodes] using hmem
    rcases hmem' with h | h
    · subst h; exact fun x hx => hx
    · intro x hx
      rw [treeIds_mk]
      exact List.mem_cons_of_mem _ (treeIds_sub_forest ch h hx)

/-- Ids of a subtree rooted inside `f` are ids of `f`. -/
theorem treeIds_sub_forest : ∀ (f : CommentForest) {pn : CommentNode},
    pn ∈ forestNodes f → treeIds pn ⊆ forestIds f
  | .nil, pn, hmem => by simp [forestNodes] at hmem
  | .cons t ts, pn, hmem => by
    have hmem' : pn ∈ treeNodes t ∨ pn ∈ forestNodes ts := by
      simpa [forestNodes] using hmem
    intro x hx
    rw [forestIds_cons]
    rcases hmem' with h | h
    · exact List.mem_append_left _ (treeIds_sub_tree t h hx)
    · exact List.mem_append_right _ (treeIds_sub_forest ts h hx)
end

/-- A top-level member of a sibling list is among the forest's nodes. -/
theorem mem_forestNodes_of_forestMem :
    ∀ {f : CommentForest} {ct : CommentNode}, ForestMem ct f → ct ∈ forestNodes f
  | .nil, _, h => absurd h not_false
  | .cons s ts, ct, h => by
    rcases h with h | h
    · subst h
      exact List.mem_append_left _ (self_mem_treeNodes ct)
    · exact List.mem_append_right _ (mem_forestNodes_of_forestMem h)

/-- Ids of a direct child's subtree are ids of the parent's subtree. -/
theorem treeIds_sub_of_child {pn ct : CommentNode}
    (h : ForestMem ct pn.children) : treeIds ct ⊆ treeIds pn := by
  cases pn with
  | mk i an co pr ca uv dp ba ow ch =>
    intro x hx
    rw [treeIds_mk]
    have hc : ct ∈ forestNodes ch := mem_forestNodes_of_forestMem h
    exact List.mem_cons_of_mem _ (treeIds_sub_forest ch hc hx)

mutual
/-- A delete propagated towards a parent id that does not occur in the
subtree leaves the subtree untouched. -/
theorem removeFromTree_id_not_mem : ∀ (t : CommentNode) {pid cid : Nat},
    pid ∉ treeIds t → removeFromTree pid cid t = t
  | .mk i an co pr ca uv dp ba ow ch, pid, cid, hpid => by
    rw [treeIds_mk] at hpid
    have hne : i ≠ pid := fun h => hpid (h ▸ List.mem_cons_self _ _)
    have hch : pid ∉ forestIds ch := fun h => hpid (List.mem_cons_of_mem _ h)
    unfold removeFromTree
    rw [if_neg hne, removeFromForest_id_not_mem ch hch]

/-- A delete propagated towards a parent id that does not occur in the
forest leaves the forest untouched. -/
theorem removeFromForest_id_not_mem : ∀ (f : CommentForest) {pid cid : Nat},
    pid ∉ forestIds f → removeFromForest pid cid f = f
  | .nil, _, _, _ => rfl
  | .cons t ts, pid, cid, hpid => by
    rw [forestIds_cons] at hpid
    have ht : pid ∉ treeIds t := fun h => hpid (List.mem_append_left _ h)
    have hts : pid ∉ forestIds ts := fun h => hpid (List.mem_append_right _ h)
    unfold removeFromForest
    rw [removeFromTree_id_not_mem t ht, removeFromForest_id_not_mem ts hts]
end

/-- Filtering an id that occurs nowhere in the forest is a no-op. -/
theorem filterOutChild_not_mem : ∀ (f : CommentForest) {cid : Nat},
    cid ∉ forestIds f → filterOutChild cid f = f
  | .nil, _, _ => rfl
  | .cons t ts, cid, hcid => by
    rw [forestIds_cons] at hcid
    have ht : t.id ≠ cid := by
      intro h
      exact hcid (List.mem_append_left _ (h ▸ id_mem_treeIds t))
    have hts : cid ∉ forestIds ts := fun h => hcid (List.mem_append_right _ h)
    unfold filterOutChild
    rw [if_neg ht, filterOutChild_not_mem ts hts]

/-- Removing the subtrees rooted at `ct.id` from a duplicate-free sibling
list that holds `ct` removes exactly the ids of `ct`'s subtree. -/
theorem filterOutChild_ids : ∀ (f : CommentForest) {ct : CommentNode} {cid : Nat},
    (forestIds f).Nodup → ForestMem ct f → ct.id = cid →
      forestIds (filterOutChild cid f)
        = (forestIds f).filter (fun x => !(decide (x ∈ treeIds ct)))
  | .nil, ct, cid, _, hmem, _ => absurd hmem not_false
  | .cons s ts, ct, cid, hnd, hmem, hcid => by
    rw [forestIds_cons] at hnd
    have hdisj := List.disjoint_of_nodup_append hnd
    rw [List.nodup_append] at hnd
    rcases hmem with h | h
    · subst h
      have hsid : ct.id = cid := hcid
      have hcts : cid ∉ forestIds ts := by
        intro hmem'
        exact hdisj (hcid ▸ id_mem_treeIds ct) hmem'
      unfold filterOutChild
      rw [if_pos hsid, filterOutChild_not_mem ts hcts, forestIds_cons]
      rw [List.filter_append]
      have h1 : (treeIds ct).filter (fun x => !(decide (x ∈ treeIds ct))) = [] := by
        rw [List.filter_eq_nil_iff]
        intro a ha
        simp [ha]
      have h2 : (forestIds ts).filter (fun x => !(decide (x ∈ treeIds ct)))
          = forestIds ts := by
        rw [List.filter_eq_self]
        intro a ha
        simp only [Bool.not_eq_true', decide_eq_false_iff_not]
        intro hmem'
        exact hdisj hmem' ha
      rw [h1, h2, List.nil_append]
    · have hsid : s.id ≠ cid := by
        intro he
        refine hdisj (he ▸ id_mem_treeIds s) ?_
        have : ct ∈ forestNodes ts := mem_forestNodes_of_forestMem h
        exact hcid ▸ List.mem_map_of_mem CommentNode.id this
      unfold filterOutChild
      rw [if_neg hsid, forestIds_cons, forestIds_cons, List.filter_append]
      have hsub : treeIds ct ⊆ forestIds ts :=
        treeIds_sub_forest ts (mem_forestNodes_of_forestMem h)
      have h1 : (treeIds s).filter (fun x => !(decide (x ∈ treeIds ct)))
          = treeIds s := by
        rw [List.filter_eq_self]
        intro a ha
        simp only [Bool.not_eq_true', decide_eq_false_iff_not]
        intro hmem'
        exact hdisj ha (hsub hmem')
      rw [h1, filterOutChild_ids ts hnd.2.1 h hcid]

mutual
/-- Propagating a successful delete of `ct` (a direct child of the node with
id `pid` inside subtree `t`) removes exactly the ids of `ct`'s subtree from
`t`. -/
theorem removeFromTree_ids : ∀ (t : CommentNode) {pid cid : Nat}
    {pn ct : CommentNode}, (treeIds t).Nodup → pn ∈ treeNodes t →
    pn.id = pid → ForestMem ct pn.children → ct.id = cid →
      treeIds (removeFromTree pid cid t)
        = (treeIds t).filter (fun x => !(decide (x ∈ treeIds ct)))
  | .mk i an co pr ca uv dp ba ow ch, pid, cid, pn, ct, hnd, hpn, hpid, hct, hcid => by
    rw [treeIds_mk] at hnd ⊢
    have hhead : i ∉ forestIds ch := (List.nodup_cons.mp hnd).1
    have hndch : (forestIds ch).Nodup := (List.nodup_cons.mp hnd).2
    by_cases hip : i = pid
    · -- this node is the parent: with duplicate-free ids it must be pn itself
      have hpneq : pn = .mk i an co pr ca uv dp ba ow ch := by
        have hndn : (treeIds (CommentNode.mk i an co pr ca uv dp ba ow ch)).Nodup := by
          rw [treeIds_mk]
          exact hnd
        refine List.inj_on_of_nodup_map hndn hpn
          (self_mem_treeNodes (.mk i an co pr ca uv dp ba ow ch)) ?_
        show CommentNode.id pn = i
        rw [hpid]
        exact hip.symm
      have hchild : ForestMem ct ch := by
        rw [hpneq] at hct
        exact hct
      unfold removeFromTree
      rw [if_pos hip, treeIds_mk]
      rw [filterOutChild_ids ch hndch hchild hcid]
      have hsub : treeIds ct ⊆ forestIds ch :=
        treeIds_sub_forest ch (mem_forestNodes_of_forestMem hchild)
      have hi0 : i ∉ treeIds ct := fun hmem' => hhead (hsub hmem')
      rw [List.filter_cons]
      simp [hi0]
    · -- the parent sits deeper in the children
      have hpn' : pn ∈ forestNodes ch := by
        have : pn = .mk i an co pr ca uv dp ba ow ch ∨ pn ∈ forestNodes ch := by
          simpa [treeNodes] using hpn
        rcases this with h | h
        · exfalso
          apply hip
          rw [← hpid, h]
          simp [CommentNode.id]
        · exact h
      unfold removeFromTree
      rw [if_neg hip, treeIds_mk]
      rw [removeFromForest_ids ch hndch hpn' hpid hct hcid]
      have hsub : treeIds ct ⊆ forestIds ch := fun x hx =>
        treeIds_sub_forest ch hpn' (treeIds_sub_of_child hct hx)
      have hi0 : i ∉ treeIds ct := fun hmem' => hhead (hsub hmem')
      rw [List.filter_cons]
      simp [hi0]

/-- Propagating a successful delete of `ct` (a direct child of the node with
id `pid` inside forest `f`) removes exactly the ids of `ct`'s subtree from
`f`. -/
theorem removeFromForest_ids : ∀ (f : CommentForest) {pid cid : Nat}
    {pn ct : CommentNode}, (forestIds f).Nodup → pn ∈ forestNodes f →
    pn.id = pid → ForestMem ct pn.children → ct.id = cid →
      forestIds (removeFromForest pid cid f)
        = (forestIds f).filter (fun x => !(decide (x ∈ treeIds ct)))
  | .nil, _, _, _, _, _, hpn, _, _, _ => by simp [forestNodes] at hpn
  | .cons s ts, pid, cid, pn, ct, hnd, hpn, hpid, hct, hcid => by
    rw [forestIds_cons] at hnd
    have hdisj := List.disjoint_of_nodup_append hnd
    rw [List.nodup_append] at hnd
    have hpn' : pn ∈ treeNodes s ∨ pn ∈ forestNodes ts := by
      simpa [forestNodes] using hpn
    unfold removeFromForest
    rw [forestIds_cons, forestIds_cons, List.filter_append]
    rcases hpn' with h | h
    · -- the parent is inside the head subtree
      have hpidts : pid ∉ forestIds ts := by
        intro hmem'
        refine hdisj ?_ hmem'
        exact hpid ▸ List.mem_map_of_mem CommentNode.id h
      rw [removeFromForest_id_not_mem ts hpidts]
      rw [removeFromTree_ids s hnd.1 h hpid hct hcid]
      have hsub : treeIds ct ⊆ treeIds s := fun x hx =>
        treeIds_sub_tree s h (treeIds_sub_of_child hct hx)
      have h2 : (forestIds ts).filter (fun x => !(decide (x ∈ treeIds ct)))
          = forestIds ts := by
        rw [List.filter_eq_self]
        intro a ha
        simp only [Bool.not_eq_true', decide_eq_false_iff_not]
        intro hmem'
        exact hdisj (hsub hmem') ha
      rw [h2]
    · -- the parent is inside the tail forest
      have hpids : pid ∉ treeIds s := by
        intro hmem'
        refine hdisj hmem' ?_
        exact hpid ▸ List.mem_map_of_mem CommentNode.id h
      rw [removeFromTree_id_not_mem s hpids]
      rw [removeFromForest_ids ts hnd.2.1 h hpid hct hcid]
      have hsub : treeIds ct ⊆ forestIds ts := fun x hx =>
        treeIds_sub_forest ts h (treeIds_sub_of_child hct hx)
      have h1 : (treeIds s).filter (fun x => !(decide (x ∈ treeIds ct)))
          = treeIds s := by
        rw [List.filter_eq_self]
        intro a ha
        simp only [Bool.not_eq_true', decide_eq_false_iff_not]
        intro hmem'
        exact hdisj ha (hsub hmem')
      rw [h1]
end

/-- C10: the client delete flow is atomic with respect to the rendered tree:
a DELETE response with a status other than 200 leaves the rendered comment
tree unchanged (only an error is surfaced), and a 200 response removes
exactly the deleted comment's subtree — the rendered id sequence becomes the
original one with precisely the subtree's ids dropped, every other comment
staying in place. -/
theorem delete_response_atomic (status : Nat) (forest : CommentForest)
    (pid : Option Nat) (cid : Nat) (ct : CommentNode)
    (hnd : (forestIds forest).Nodup)
    (hloc : LocatedAt forest pid ct)
    (hcid : ct.id = cid) :
    (status ≠ 200 → handleDeleteResponse status forest pid cid = forest) ∧
    forestIds (handleDeleteResponse 200 forest pid cid)
      = (forestIds forest).filter (fun x => !(decide (x ∈ treeIds ct))) := by
  constructor
  · intro hs
    unfold handleDeleteResponse
    rw [if_neg hs]
  · unfold handleDeleteResponse
    rw [if_pos rfl]
    cases pid with
    | none =>
      have hmem : ForestMem ct forest := hloc
      exact filterOutChild_ids forest hnd hmem hcid
    | some p =>
      have hloc' : ∃ pn, pn ∈ forestNodes forest ∧ pn.id = p ∧
          ForestMem ct pn.children := hloc
      obtain ⟨pn, hpn, hpid, hct⟩ := hloc'
      exact removeFromForest_ids forest hnd hpn hpid hct hcid

/-- Witness leaf: a reply to comment 2. -/
def exT3 : CommentNode :=
  .mk 3 "cid" "reply to reply" (some 2) "t3" 0 2 none none .nil

/-- Witness subtree: a reply to comment 1 holding `exT3`. -/
def exT2 : CommentNode :=
  .mk 2 "bob" "reply" (some 1) "t2" 0 1 none (some true) (.cons exT3 .nil)

/-- Witness root comment holding `exT2`. -/
def exT1 : CommentNode :=
  .mk 1 "ann" "root" none "t1" 0 0 none none (.cons exT2 .nil)

/-- A second witness root comment. -/
def exT4 : CommentNode :=
  .mk 4 "dee" "other root" none "t4" 1 0 none none .nil

/-- The witness forest: two root comments, one with a two-level subtree. -/
def exForest : CommentForest := .cons exT1 (.cons exT4 .nil)

/-- C10 witness: deleting comment 2 (a child of comment 1) from the concrete
forest — a non-200 response leaves the tree untouched, and a 200 response
drops exactly the ids 2 and 3 of the deleted subtree. -/
theorem delete_response_atomic_witness :
    (404 ≠ 200 → handleDeleteResponse 404 exForest (some 1) 2 = exForest) ∧
    forestIds (handleDeleteResponse 200 exForest (some 1) 2)
      = (forestIds exForest).filter (fun x => !(decide (x ∈ treeIds exT2))) :=
  delete_response_atomic 404 exForest (some 1) 2 exT2
    (by simp [exForest, exT1, exT2, exT3, exT4, forestIds_cons, forestIds_nil,
      treeIds_mk])
    ⟨exT1, by simp [exForest, exT1, forestNodes, treeNodes],
      rfl, Or.inl rfl⟩
    rfl
